import Mathlib

/-!
Verification of the catalog-management script `update-catalog.py`.

The script manages a JSON document `{"apps": [...]}` stored in an
S3-compatible object store.  We embed it shallowly:

* `Json` models the Python JSON values the script manipulates
  (the catalog schema uses only objects, arrays, strings, booleans and
  null; the script never produces numbers).
* `dumps` models `json.dumps(v, indent=2)` and `loads` models
  `json.loads`, restricted to that fragment.
* `AppEntry`/`Catalog` model the entry dictionaries after the
  `catalog["apps"]` access has succeeded; optional fields accessed with
  `.get` in the source are `Option`s.
* Effects are explicit: the MinIO fetch outcome is an `Option String`
  argument (`none` models any exception caught by `load_catalog`'s
  bare `except`), the put is a function argument, printed text and
  return values are record fields.
-/

/-- JSON values, covering the fragment of Python's `json` module used by
the script (objects, arrays, strings, booleans, null). -/
inductive Json where
  | null : Json
  | bool : Bool → Json
  | str : String → Json
  | arr : List Json → Json
  | obj : List (String × Json) → Json

/-- MINIO_BUCKET constant from the script. -/
def MINIO_BUCKET : String := "daedalus"

/-- CATALOG_FILE constant from the script. -/
def CATALOG_FILE : String := "catalog.json"

/-- Empty catalog document, the literal `{"apps": []}` returned by
`load_catalog` when the fetch or the parse raises. -/
def emptyCatalogJson : Json := Json.obj [("apps", Json.arr [])]

/-- Dictionary subscript `d[k]`: `some` of the value bound to the key of
an object, `none` when the value is not an object or lacks the key
(modelling the `KeyError`/`TypeError` Python raises there). -/
def subscript (j : Json) (k : String) : Option Json :=
  match j with
  | Json.obj kvs => kvs.lookup k
  | _ => none

/-- One entry of the catalog, the dictionary built in `add_app`.
Fields read unconditionally in the source (`app["id"]`, …) are plain;
fields read with `.get` (`created_at`, `updated_at`, which older
entries may lack) are `Option`s. -/
structure AppEntry where
  id : String
  name : String
  icon : String
  description : String
  path : String
  featured : Bool
  created_at : Option String := none
  updated_at : Option String := none
deriving DecidableEq

/-- Parsed catalog once the `catalog["apps"]` access has succeeded:
just the list of entries. -/
structure Catalog where
  apps : List AppEntry
deriving DecidableEq

/-- Catalog holding no entries. -/
def emptyCatalog : Catalog := ⟨[]⟩

/-- Linear scan of `add_app` (the `for idx, app in enumerate(...)` loop
with `break`): index of the first entry whose `id` matches, if any. -/
def findIndexById : List AppEntry → String → Option Nat
  | [], _ => none
  | a :: rest, app_id =>
      if a.id = app_id then some 0
      else (findIndexById rest app_id).map (· + 1)

/-- Observable outcome of `add_app`: the catalog passed to
`save_catalog`, the text printed, and the Python return value. -/
structure AddResult where
  catalog : Catalog
  printed : String
  ret : Bool
deriving DecidableEq

/-- Shallow embedding of `add_app`.  The two `datetime.now(...)`
calls (line 84 for `created_at`, line 90 for `updated_at`) are the
parameters `now1` and `now2` in evaluation order.  When an existing
index is found it is in range (`findIndexById_lt_length`), so the
`getD` default of the list access is never used. -/
def add_app (c : Catalog) (app_id name icon description path : String)
    (featured : Bool) (now1 now2 : String) : AddResult :=
  let base : AppEntry :=
    { id := app_id, name := name, icon := icon, description := description,
      path := path, featured := featured, created_at := some now1,
      updated_at := none }
  match findIndexById c.apps app_id with
  | some idx =>
      let old := (c.apps.get? idx).getD base
      let entry : AppEntry :=
        { base with created_at := some (old.created_at.getD now1),
                    updated_at := some now2 }
      { catalog := ⟨c.apps.set idx entry⟩,
        printed := "Updated" ++ " app: " ++ name ++ " (" ++ app_id ++ ")",
        ret := true }
  | none =>
      { catalog := ⟨c.apps ++ [base]⟩,
        printed := "Added" ++ " app: " ++ name ++ " (" ++ app_id ++ ")",
        ret := true }

/-- Observable outcome of `remove_app`: the resulting catalog, the
catalog handed to `save_catalog` (`none` when no write happens), the
text printed, and the return value. -/
structure RemoveResult where
  catalog : Catalog
  saved : Option Catalog
  printed : String
  ret : Bool
deriving DecidableEq

/-- Shallow embedding of `remove_app`. -/
def remove_app (c : Catalog) (app_id : String) : RemoveResult :=
  let original_count := c.apps.length
  let newApps := c.apps.filter (fun app => app.id != app_id)
  if newApps.length < original_count then
    { catalog := ⟨newApps⟩, saved := some ⟨newApps⟩,
      printed := "Removed app: " ++ app_id, ret := true }
  else
    { catalog := ⟨newApps⟩, saved := none,
      printed := "App not found: " ++ app_id, ret := false }

/-- Sort key of `list_apps`: `x.get("created_at", "")`. -/
def sortKey (e : AppEntry) : String := e.created_at.getD ""

/-- Sequence of entries printed by `list_apps`:
`sorted(catalog["apps"], key=lambda x: x.get("created_at", ""))`.
Python's `sorted` is a stable sort by the key under string order,
which `List.mergeSort` with the key comparison models. -/
def list_apps (c : Catalog) : List AppEntry :=
  c.apps.mergeSort (fun a b => decide (sortKey a ≤ sortKey b))

/-- Newline followed by `ind` spaces, as emitted between items by
`json.dumps(..., indent=2)`. -/
def nlInd (ind : Nat) : List Char := '\n' :: List.replicate ind ' '

/-- JSON escaping of one character inside a string literal. -/
def escChar (c : Char) : List Char :=
  if c = '"' then ['\\', '"']
  else if c = '\\' then ['\\', '\\']
  else if c = '\n' then ['\\', 'n']
  else if c = '\t' then ['\\', 't']
  else if c = '\r' then ['\\', 'r']
  else [c]

/-- JSON escaping of a character sequence. -/
def escStr : List Char → List Char
  | [] => []
  | c :: cs => escChar c ++ escStr cs

/-- JSON string literal for `s`, quotes included. -/
def encodeStr (s : String) : List Char := '"' :: (escStr s.data ++ ['"'])

mutual
/-- Serialization of one JSON value at indentation level `ind`,
mirroring `json.dumps(v, indent=2)` (item separator is a comma followed
by a newline and the indentation, key separator is a colon and a
space, empty containers stay on one line). -/
def dumpVal : Json → Nat → List Char
  | Json.null, _ => ['n', 'u', 'l', 'l']
  | Json.bool true, _ => ['t', 'r', 'u', 'e']
  | Json.bool false, _ => ['f', 'a', 'l', 's', 'e']
  | Json.str s, _ => encodeStr s
  | Json.arr [], _ => ['[', ']']
  | Json.arr (x :: xs), ind =>
      '[' :: (nlInd (ind + 2) ++ dumpVal x (ind + 2) ++ dumpElems xs (ind + 2)
        ++ nlInd ind ++ [']'])
  | Json.obj [], _ => ['{', '}']
  | Json.obj ((k, v) :: kvs), ind =>
      '{' :: (nlInd (ind + 2) ++ encodeStr k ++ [':', ' '] ++ dumpVal v (ind + 2)
        ++ dumpMembers kvs (ind + 2) ++ nlInd ind ++ ['}'])

/-- Serialization of the remaining array elements, each preceded by a
comma, a newline and the indentation. -/
def dumpElems : List Json → Nat → List Char
  | [], _ => []
  | x :: xs, ind => ',' :: (nlInd ind ++ dumpVal x ind ++ dumpElems xs ind)

/-- Serialization of the remaining object members, each preceded by a
comma, a newline and the indentation. -/
def dumpMembers : List (String × Json) → Nat → List Char
  | [], _ => []
  | (k, v) :: kvs, ind =>
      ',' :: (nlInd ind ++ encodeStr k ++ [':', ' '] ++ dumpVal v ind
        ++ dumpMembers kvs ind)
end

/-- Model of `json.dumps(catalog, indent=2)`. -/
def dumps (j : Json) : String := String.mk (dumpVal j 0)

/-- Whitespace test of the JSON grammar. -/
def isWsChar (c : Char) : Bool := c = ' ' || c = '\n' || c = '\t' || c = '\r'

/-- Drop leading JSON whitespace. -/
def skipWs : List Char → List Char
  | [] => []
  | c :: cs => if isWsChar c then skipWs cs else c :: cs

/-- Unescaping of the character following a backslash in a JSON string
literal (the escapes the serializer can produce, plus the solidus). -/
def unescChar (c : Char) : Option Char :=
  if c = '"' then some '"'
  else if c = '\\' then some '\\'
  else if c = '/' then some '/'
  else if c = 'n' then some '\n'
  else if c = 't' then some '\t'
  else if c = 'r' then some '\r'
  else none

/-- Body of a JSON string literal after the opening quote: the decoded
characters and the input remaining after the closing quote. -/
def parseStrBody : List Char → Option (List Char × List Char)
  | [] => none
  | c :: cs =>
      if c = '"' then some ([], cs)
      else if c = '\\' then
        match cs with
        | [] => none
        | e :: cs2 =>
            match unescChar e, parseStrBody cs2 with
            | some u, some (s, r) => some (u :: s, r)
            | _, _ => none
      else
        match parseStrBody cs with
        | some (s, r) => some (c :: s, r)
        | none => none

mutual
/-- Recursive-descent reading of one JSON value (fuelled; `loads`
supplies ample fuel).  The input must start at the value's first
character; `none` models `json.loads` raising `JSONDecodeError`. -/
def parseVal : Nat → List Char → Option (Json × List Char)
  | 0, _ => none
  | _ + 1, [] => none
  | fuel + 1, c :: cs =>
      if c = '"' then
        match parseStrBody cs with
        | some (s, r) => some (Json.str (String.mk s), r)
        | none => none
      else if c = '{' then
        match skipWs cs with
        | '}' :: r => some (Json.obj [], r)
        | r =>
            match parseMembers fuel r with
            | some (kvs, r2) => some (Json.obj kvs, r2)
            | none => none
      else if c = '[' then
        match skipWs cs with
        | ']' :: r => some (Json.arr [], r)
        | r =>
            match parseElems fuel r with
            | some (xs, r2) => some (Json.arr xs, r2)
            | none => none
      else
        match c :: cs with
        | 't' :: 'r' :: 'u' :: 'e' :: r => some (Json.bool true, r)
        | 'f' :: 'a' :: 'l' :: 's' :: 'e' :: r => some (Json.bool false, r)
        | 'n' :: 'u' :: 'l' :: 'l' :: r => some (Json.null, r)
        | _ => none

/-- Reading of the elements of a non-empty array, positioned at the
first character of an element. -/
def parseElems : Nat → List Char → Option (List Json × List Char)
  | 0, _ => none
  | fuel + 1, cs =>
      match parseVal fuel cs with
      | some (x, r) =>
          match skipWs r with
          | ',' :: r2 =>
              match parseElems fuel (skipWs r2) with
              | some (xs, r3) => some (x :: xs, r3)
              | none => none
          | ']' :: r2 => some ([x], r2)
          | _ => none
      | none => none

/-- Reading of the members of a non-empty object, positioned at the
opening quote of a key. -/
def parseMembers : Nat → List Char → Option (List (String × Json) × List Char)
  | 0, _ => none
  | fuel + 1, cs =>
      match cs with
      | '"' :: cs2 =>
          match parseStrBody cs2 with
          | some (k, r) =>
              match skipWs r with
              | ':' :: r2 =>
                  match parseVal fuel (skipWs r2) with
                  | some (v, r3) =>
                      match skipWs r3 with
                      | ',' :: r4 =>
                          match parseMembers fuel (skipWs r4) with
                          | some (kvs, r5) => some ((String.mk k, v) :: kvs, r5)
                          | none => none
                      | '}' :: r4 => some ([(String.mk k, v)], r4)
                      | _ => none
                  | none => none
              | _ => none
          | none => none
      | _ => none
end

/-- Model of `json.loads`: reads one value surrounded by optional
whitespace, `none` on any malformed input. -/
def loads (s : String) : Option Json :=
  match parseVal (s.length + 1) (skipWs s.data) with
  | some (j, rest) => if skipWs rest = [] then some j else none
  | none => none

/-- Shallow embedding of `load_catalog`.  The argument is the outcome
of `client.get_object(...).read().decode('utf-8')`: `none` when the
fetch, read or decode raises.  The bare `except` maps every failure,
including a parse failure, to the literal `{"apps": []}`; the function
is total, so the model never raises. -/
def load_catalog (fetched : Option String) : Json :=
  match fetched with
  | some s =>
      match loads s with
      | some j => j
      | none => emptyCatalogJson
  | none => emptyCatalogJson

/-- Arguments of the single `client.put_object` call issued by
`save_catalog`; `length` models `length=len(data)` in bytes. -/
structure PutRequest where
  bucket : String
  key : String
  data : String
  length : Nat
  contentType : String

/-- Shallow embedding of `save_catalog`: serializes with
`json.dumps(catalog, indent=2)`, UTF-8 encodes, and issues exactly one
put; the put's outcome is returned unmodified (no retry, no handler). -/
def save_catalog (put : PutRequest → Except String Unit) (catalog : Json) :
    Except String Unit :=
  let data := dumps catalog
  put { bucket := MINIO_BUCKET, key := CATALOG_FILE, data := data,
        length := data.utf8ByteSize, contentType := "application/json" }

/-- Scalar JSON values (string, boolean or null): the field values a
serialized `AppEntry` can hold. -/
def ScalarJ (j : Json) : Prop :=
  (∃ s, j = Json.str s) ∨ (∃ b, j = Json.bool b) ∨ j = Json.null

/-- Flat object whose values are all scalars: the shape of one
serialized catalog entry. -/
def FlatEntry (j : Json) : Prop :=
  ∃ kvs, j = Json.obj kvs ∧ ∀ kv ∈ kvs, ScalarJ kv.2

/-- Shape of a valid catalog document: an object with the single key
`apps` bound to an array of flat entries. -/
def FlatDoc (j : Json) : Prop :=
  ∃ es, j = Json.obj [("apps", Json.arr es)] ∧ ∀ e ∈ es, FlatEntry e

/-- Parser fuel sufficient for one flat entry. -/
def entryFuel : Json → Nat
  | Json.obj kvs => kvs.length + 2
  | _ => 1

/-- Parser fuel sufficient for an element chain of flat entries. -/
def elemsFuel : List Json → Nat
  | [] => 0
  | e :: tl => entryFuel e + elemsFuel tl + 1

/-- Index returned by the scan is in range and points at an entry with
the searched id. -/
theorem findIndexById_get {l : List AppEntry} {i : String} {idx : Nat}
    (h : findIndexById l i = some idx) :
    ∃ old, l.get? idx = some old ∧ old.id = i := by
  induction l generalizing idx with
  | nil => simp [findIndexById] at h
  | cons a rest ih =>
      by_cases ha : a.id = i
      · simp [findIndexById, ha] at h
        exact ⟨a, by simp [← h], ha⟩
      · simp [findIndexById, ha] at h
        obtain ⟨n, hn, hidx⟩ := h
        obtain ⟨old, hold, hid⟩ := ih hn
        refine ⟨old, ?_, hid⟩
        rw [← hidx]
        simpa using hold

/-- The scan fails exactly when no entry has the searched id. -/
theorem findIndexById_eq_none {l : List AppEntry} {i : String} :
    findIndexById l i = none ↔ i ∉ l.map AppEntry.id := by
  induction l with
  | nil => simp [findIndexById]
  | cons a rest ih =>
      by_cases ha : a.id = i
      · simp [findIndexById, ha]
      · simp [findIndexById, ha, ih, Ne.symm ha]

/-- C1: an upsert on an absent id appends a fresh entry whose
`created_at` is the current timestamp and which has no `updated_at`;
on a present id it replaces the entry in place at the found position,
keeps the stored `created_at` (the timestamp argument is only the
`.get` default), and stamps `updated_at` with the current timestamp. -/
theorem add_app_upsert_spec (c : Catalog) (i n ic d p : String) (f : Bool)
    (t1 t2 : String) :
    (findIndexById c.apps i = none →
      (add_app c i n ic d p f t1 t2).catalog.apps
        = c.apps ++ [⟨i, n, ic, d, p, f, some t1, none⟩]) ∧
    (∀ idx old, findIndexById c.apps i = some idx → c.apps.get? idx = some old →
      (add_app c i n ic d p f t1 t2).catalog.apps
          = c.apps.set idx
              ⟨i, n, ic, d, p, f, some (old.created_at.getD t1), some t2⟩ ∧
        (∀ ca, old.created_at = some ca →
          (add_app c i n ic d p f t1 t2).catalog.apps.get? idx
            = some ⟨i, n, ic, d, p, f, some ca, some t2⟩) ∧
        idx < c.apps.length) := by
  constructor
  · intro h
    simp [add_app, h]
  · intro idx old hfind hget
    have hget' : c.apps[idx]? = some old := by simpa using hget
    have hlt : idx < c.apps.length := by
      have := List.get?_eq_some.mp hget
      exact this.1
    refine ⟨by simp [add_app, hfind, hget'], ?_, hlt⟩
    intro ca hca
    simp [add_app, hfind, hget', hca, List.getElem?_set_self, hlt]

/-- Sample stored entry used by concrete instantiations. -/
def wEntry : AppEntry :=
  ⟨"weather", "Weather", "s", "shows weather", "/apps/weather/index.html",
    false, some "2024-01-01T00:00:00+00:00", none⟩

/-- Witness for `add_app_upsert_spec`: updating the sole entry keeps
its stored `created_at` and stamps the new `updated_at`. -/
theorem add_app_upsert_spec_witness :
    findIndexById [wEntry] "weather" = some 0 ∧
    ([wEntry] : List AppEntry).get? 0 = some wEntry ∧
    (add_app ⟨[wEntry]⟩ "weather" "W2" "i2" "d2" "/w2" true "T1" "T2").catalog.apps
      = [⟨"weather", "W2", "i2", "d2", "/w2", true,
          some "2024-01-01T00:00:00+00:00", some "T2"⟩] := by
  refine ⟨by decide, rfl, ?_⟩
  have h := ((add_app_upsert_spec ⟨[wEntry]⟩ "weather" "W2" "i2" "d2" "/w2"
    true "T1" "T2").2 0 wEntry (by decide) rfl).1
  simpa [wEntry] using h

/-- C7 counterexample: `add_app` returns the bare boolean `True` in
the insert case and in the update case alike, so its return value
carries neither the resulting entry nor an insert/update indication. -/
theorem add_app_ret_counterexample :
    (add_app emptyCatalog "weather" "Weather" "i" "d" "/w" false "T1" "T2").ret
      = true ∧
    (add_app ⟨[wEntry]⟩ "weather" "Weather" "i" "d" "/w" false "T1" "T2").ret
      = true ∧
    (add_app emptyCatalog "weather" "Weather" "i" "d" "/w" false "T1" "T2").ret
      = (add_app ⟨[wEntry]⟩ "weather" "Weather" "i" "d" "/w" false "T1" "T2").ret := by
  refine ⟨?_, ?_, ?_⟩ <;> decide

/-- C7 (amended): `add_app` always returns `True`; the entry identity
and the insert-vs-update indication are conveyed only through the
printed message. -/
theorem add_app_ret_spec (c : Catalog) (i n ic d p : String) (f : Bool)
    (t1 t2 : String) :
    (add_app c i n ic d p f t1 t2).ret = true ∧
    (add_app c i n ic d p f t1 t2).printed
      = (if (findIndexById c.apps i).isSome then "Updated" else "Added")
          ++ " app: " ++ n ++ " (" ++ i ++ ")" := by
  unfold add_app
  cases h : findIndexById c.apps i <;> simp

/-- C8 counterexample: the add command prints
`Added app: <name> (<id>)` — with the literal infix `app: ` — not
`Added <name> (<id>)`. -/
theorem add_app_printed_counterexample :
    (add_app emptyCatalog "weather" "Weather" "i" "d" "/w" false "T1" "T2").printed
      = "Added app: Weather (weather)" ∧
    "Added app: Weather (weather)" ≠ "Added Weather (weather)" := by
  refine ⟨by decide, by decide⟩

/-- C8 (amended): the printed message is exactly
`Added app: <name> (<id>)` on insert and `Updated app: <name> (<id>)`
on update. -/
theorem add_app_printed_spec (c : Catalog) (i n ic d p : String) (f : Bool)
    (t1 t2 : String) :
    (add_app c i n ic d p f t1 t2).printed
      = (if (findIndexById c.apps i).isSome then "Updated" else "Added")
          ++ " app: " ++ n ++ " (" ++ i ++ ")" := by
  unfold add_app
  cases h : findIndexById c.apps i <;> simp

/-- When the searched id is absent the filter of `remove_app` keeps
every entry. -/
theorem filter_ne_of_not_mem {l : List AppEntry} {i : String}
    (h : i ∉ l.map AppEntry.id) :
    l.filter (fun a => a.id != i) = l := by
  apply List.filter_eq_self.mpr
  intro a ha
  simp only [bne_iff_ne, ne_eq]
  intro heq
  exact h (List.mem_map.mpr ⟨a, ha, heq⟩)

/-- Under unique ids, filtering out a present id removes exactly one
entry. -/
theorem length_filter_ne {l : List AppEntry} {i : String}
    (hnd : (l.map AppEntry.id).Nodup) (hmem : i ∈ l.map AppEntry.id) :
    (l.filter (fun a => a.id != i)).length + 1 = l.length := by
  induction l with
  | nil => simp at hmem
  | cons a rest ih =>
      simp only [List.map_cons, List.nodup_cons] at hnd
      obtain ⟨hna, hndr⟩ := hnd
      by_cases ha : a.id = i
      · have hrest : i ∉ rest.map AppEntry.id := by rw [← ha]; exact hna
        simp [List.filter_cons, ha, filter_ne_of_not_mem hrest]
      · have hmem' : i ∈ rest.map AppEntry.id := by
          rcases (by simpa using hmem : i = a.id ∨ ∃ b ∈ rest, b.id = i) with
            h | ⟨b, hb, hbi⟩
          · exact absurd h.symm ha
          · exact List.mem_map.mpr ⟨b, hb, hbi⟩
        have := ih hndr hmem'
        simp only [List.filter_cons]
        have hne : (a.id != i) = true := by simpa using ha
        simp [hne]
        omega

/-- C2: under the unique-id invariant, removing a present id shrinks
the count by exactly one, returns true and writes the shrunk catalog;
removing an absent id leaves the catalog unchanged, returns false and
performs no write at all (`saved = none` models the skipped
`save_catalog`/`put_object` call). -/
theorem remove_app_spec (c : Catalog) (i : String)
    (hnd : (c.apps.map AppEntry.id).Nodup) :
    (i ∈ c.apps.map AppEntry.id →
      (remove_app c i).catalog.apps.length + 1 = c.apps.length ∧
      (remove_app c i).ret = true ∧
      (remove_app c i).saved = some (remove_app c i).catalog) ∧
    (i ∉ c.apps.map AppEntry.id →
      (remove_app c i).catalog = c ∧
      (remove_app c i).ret = false ∧
      (remove_app c i).saved = none) := by
  constructor
  · intro hmem
    have hlen := length_filter_ne hnd hmem
    have hlt : (c.apps.filter (fun a => a.id != i)).length < c.apps.length := by
      omega
    simp [remove_app, hlt, hlen]
  · intro hmem
    have heq := filter_ne_of_not_mem hmem
    have hnlt : ¬ (c.apps.filter (fun a => a.id != i)).length < c.apps.length := by
      rw [heq]
      omega
    simp [remove_app, hnlt, heq]

/-- Second sample entry used by concrete instantiations. -/
def bEntry : AppEntry :=
  ⟨"books", "Books", "b", "book shelf", "/apps/books/index.html",
    true, some "2024-02-01T00:00:00+00:00", some "2024-03-01T00:00:00+00:00"⟩

/-- Witness for `remove_app_spec` on the catalog `[wEntry, bEntry]`:
removing `weather` shrinks 2 to 1 and writes; removing `zzz` changes
nothing and skips the write. -/
theorem remove_app_spec_witness :
    (([wEntry, bEntry] : List AppEntry).map AppEntry.id).Nodup ∧
    "weather" ∈ ([wEntry, bEntry] : List AppEntry).map AppEntry.id ∧
    (remove_app ⟨[wEntry, bEntry]⟩ "weather").catalog.apps.length + 1 = 2 ∧
    (remove_app ⟨[wEntry, bEntry]⟩ "weather").ret = true ∧
    "zzz" ∉ ([wEntry, bEntry] : List AppEntry).map AppEntry.id ∧
    (remove_app ⟨[wEntry, bEntry]⟩ "zzz").catalog = (⟨[wEntry, bEntry]⟩ : Catalog) ∧
    (remove_app ⟨[wEntry, bEntry]⟩ "zzz").saved = none := by
  have h1 := (remove_app_spec ⟨[wEntry, bEntry]⟩ "weather" (by decide)).1 (by decide)
  have h2 := (remove_app_spec ⟨[wEntry, bEntry]⟩ "zzz" (by decide)).2 (by decide)
  exact ⟨by decide, by decide, h1.1, h1.2.1, by decide, h2.1, h2.2.2⟩

/-- Empty string (the `.get` default of the sort key) is the least
string, so entries lacking `created_at` sort first. -/
theorem empty_string_le (s : String) : "" ≤ s := by
  show ¬ s < ""
  rw [String.lt_iff_toList_lt]
  intro h
  have h' : s.toList < ([] : List Char) := h
  generalize s.toList = l at h'
  cases h'

/-- C5: `list_apps` returns a permutation of the stored entries that
is sorted ascending by `created_at`, an absent `created_at` comparing
as the empty string and hence sorting first. -/
theorem list_apps_sorted_spec (c : Catalog) :
    (list_apps c).Perm c.apps ∧
    (list_apps c).Pairwise (fun a b => sortKey a ≤ sortKey b) ∧
    (∀ e e', e.created_at = none → sortKey e ≤ sortKey e') := by
  refine ⟨List.mergeSort_perm c.apps _, ?_, ?_⟩
  · have h := @List.sorted_mergeSort AppEntry
      (fun a b => decide (sortKey a ≤ sortKey b))
      (fun a b c hab hbc => by
        simp only [decide_eq_true_eq] at *
        exact le_trans hab hbc)
      (fun a b => by
        simp only [Bool.or_eq_true, decide_eq_true_eq]
        exact le_total _ _)
      c.apps
    exact h.imp (fun hab => by simpa using hab)
  · intro e e' he
    rw [sortKey, he]
    exact empty_string_le _

/-- Witness for `list_apps_sorted_spec`: a catalog stored out of
creation order, including an entry without `created_at`, lists in
creation order with the timestamp-less entry first. -/
theorem list_apps_sorted_spec_witness :
    (list_apps ⟨[bEntry, wEntry, { wEntry with id := "old", created_at := none }]⟩).Perm
        [bEntry, wEntry, { wEntry with id := "old", created_at := none }] ∧
    ({ wEntry with id := "old", created_at := none } : AppEntry).created_at = none ∧
    sortKey { wEntry with id := "old", created_at := none } ≤ sortKey bEntry := by
  have h := list_apps_sorted_spec
    ⟨[bEntry, wEntry, { wEntry with id := "old", created_at := none }]⟩
  exact ⟨h.1, rfl, h.2.2 _ bEntry rfl⟩

/-- Setting a position to the value it already holds leaves the list
unchanged. -/
theorem set_getElem_self {α : Type} {l : List α} {n : Nat} {a : α}
    (h : l[n]? = some a) : l.set n a = l := by
  induction l generalizing n with
  | nil => simp at h
  | cons x xs ih =>
      cases n with
      | zero => simp at h; simp [h]
      | succ m =>
          simp at h
          simp [List.set_cons_succ, ih h]

/-- A single `add_app` preserves uniqueness of ids. -/
theorem add_app_nodup (c : Catalog) (i n ic d p : String) (f : Bool)
    (t1 t2 : String) (hnd : (c.apps.map AppEntry.id).Nodup) :
    ((add_app c i n ic d p f t1 t2).catalog.apps.map AppEntry.id).Nodup := by
  cases hfind : findIndexById c.apps i with
  | none =>
      have hni : i ∉ c.apps.map AppEntry.id := findIndexById_eq_none.mp hfind
      have hperm : List.Perm (c.apps.map AppEntry.id ++ [i])
          (i :: c.apps.map AppEntry.id) := List.perm_append_singleton _ _
      simp only [add_app, hfind]
      rw [List.map_append]
      exact hperm.nodup_iff.mpr (List.nodup_cons.mpr ⟨hni, hnd⟩)
  | some idx =>
      obtain ⟨old, hget, hid⟩ := findIndexById_get hfind
      have hget' : c.apps[idx]? = some old := by simpa using hget
      have hmapget : (c.apps.map AppEntry.id)[idx]? = some i := by
        simp [hget', hid]
      simp only [add_app, hfind]
      rw [List.map_set]
      simpa [set_getElem_self hmapget] using hnd

/-- The catalog produced by `remove_app` is always the filtered list,
whichever branch runs. -/
theorem remove_app_catalog_apps (c : Catalog) (i : String) :
    (remove_app c i).catalog.apps = c.apps.filter (fun app => app.id != i) := by
  simp only [remove_app]
  split <;> rfl

/-- A single `remove_app` preserves uniqueness of ids. -/
theorem remove_app_nodup (c : Catalog) (i : String)
    (hnd : (c.apps.map AppEntry.id).Nodup) :
    ((remove_app c i).catalog.apps.map AppEntry.id).Nodup := by
  rw [remove_app_catalog_apps]
  exact hnd.sublist ((List.filter_sublist _).map AppEntry.id)

/-- Argument record of one `add` invocation, the two timestamps being
those sampled during that call. -/
structure UpsertArgs where
  id : String
  name : String
  icon : String
  description : String
  path : String
  featured : Bool
  now1 : String
  now2 : String
deriving DecidableEq

/-- Catalog state after one `add_app` call. -/
def applyUpsert (c : Catalog) (a : UpsertArgs) : Catalog :=
  (add_app c a.id a.name a.icon a.description a.path a.featured a.now1 a.now2).catalog

/-- Catalog state after a sequence of `add_app` calls. -/
def applyUpserts (c : Catalog) (ops : List UpsertArgs) : Catalog :=
  ops.foldl applyUpsert c

/-- Entry that an insert with the given arguments creates. -/
def insertedEntry (a : UpsertArgs) : AppEntry :=
  ⟨a.id, a.name, a.icon, a.description, a.path, a.featured, some a.now1, none⟩

/-- A sequence of upserts whose ids are distinct and absent from the
starting catalog appends the corresponding fresh entries in order. -/
theorem applyUpserts_fresh (ops : List UpsertArgs) (c : Catalog)
    (hnd : (ops.map UpsertArgs.id).Nodup)
    (hfresh : ∀ a ∈ ops, a.id ∉ c.apps.map AppEntry.id) :
    (applyUpserts c ops).apps = c.apps ++ ops.map insertedEntry := by
  induction ops generalizing c with
  | nil => simp [applyUpserts]
  | cons a tl ih =>
      have hfind : findIndexById c.apps a.id = none :=
        findIndexById_eq_none.mpr (hfresh a (List.mem_cons_self a tl))
      have hstep : applyUpsert c a = ⟨c.apps ++ [insertedEntry a]⟩ := by
        simp [applyUpsert, add_app, hfind, insertedEntry]
      have hnd' : (tl.map UpsertArgs.id).Nodup := (List.nodup_cons.mp (by simpa using hnd)).2
      have hhd : a.id ∉ tl.map UpsertArgs.id := (List.nodup_cons.mp (by simpa using hnd)).1
      have hfresh' : ∀ b ∈ tl, b.id ∉ (c.apps ++ [insertedEntry a]).map AppEntry.id := by
        intro b hb
        rw [List.map_append]
        intro hmem
        rcases List.mem_append.mp hmem with h | h
        · exact hfresh b (List.mem_cons_of_mem a hb) h
        · have hb_eq : b.id = a.id := by simpa [insertedEntry] using h
          exact hhd (hb_eq ▸ List.mem_map.mpr ⟨b, hb, rfl⟩)
      calc (applyUpserts c (a :: tl)).apps
          = (applyUpserts ⟨c.apps ++ [insertedEntry a]⟩ tl).apps := by
            simp [applyUpserts, List.foldl_cons, hstep]
        _ = (c.apps ++ [insertedEntry a]) ++ tl.map insertedEntry := ih _ hnd' hfresh'
        _ = c.apps ++ (a :: tl).map insertedEntry := by
            simp [List.append_assoc]

/-- Among freshly inserted entries with pairwise-distinct ids, exactly
the entry of `a` matches the id of `a`. -/
theorem filter_map_insertedEntry {ops : List UpsertArgs} {a : UpsertArgs}
    (hnd : (ops.map UpsertArgs.id).Nodup) (ha : a ∈ ops) :
    (ops.map insertedEntry).filter (fun e => e.id == a.id) = [insertedEntry a] := by
  induction ops with
  | nil => simp at ha
  | cons b tl ih =>
      rw [List.map_cons] at hnd
      have hnd0 := List.nodup_cons.mp hnd
      by_cases hba : b.id = a.id
      · have hab : a = b := by
          rcases List.mem_cons.mp ha with h | h
          · exact h
          · exact absurd (hba ▸ List.mem_map.mpr ⟨a, h, rfl⟩) hnd0.1
        subst hab
        have htl : (tl.map insertedEntry).filter (fun e => e.id == a.id) = [] := by
          apply List.filter_eq_nil_iff.mpr
          intro e he
          obtain ⟨x, hx, rfl⟩ := List.mem_map.mp he
          simp only [insertedEntry, beq_iff_eq]
          intro hxa
          exact hnd0.1 (hxa ▸ List.mem_map.mpr ⟨x, hx, rfl⟩)
        simp [List.filter_cons, insertedEntry, htl]
      · have ha' : a ∈ tl := by
          rcases List.mem_cons.mp ha with h | h
          · exact absurd (h ▸ rfl) hba
          · exact h
        have := ih hnd0.2 ha'
        simp only [List.map_cons, List.filter_cons]
        have hne : ((insertedEntry b).id == a.id) = false := by
          simpa [insertedEntry] using hba
        simp [hne, this]

/-- C4: uniqueness of `id` is an invariant of `add_app` and
`remove_app`, and after any sequence of upserts with distinct ids
starting from the empty catalog, `list_apps` holds exactly one entry
per id, carrying that call's field values. -/
theorem unique_ids_invariant :
    (∀ (c : Catalog) (i n ic d p : String) (f : Bool) (t1 t2 : String),
      (c.apps.map AppEntry.id).Nodup →
      ((add_app c i n ic d p f t1 t2).catalog.apps.map AppEntry.id).Nodup ∧
      ((remove_app c i).catalog.apps.map AppEntry.id).Nodup) ∧
    (∀ ops : List UpsertArgs, (ops.map UpsertArgs.id).Nodup →
      ∀ a ∈ ops,
        (list_apps (applyUpserts emptyCatalog ops)).filter (fun e => e.id == a.id)
          = [insertedEntry a]) := by
  constructor
  · intro c i n ic d p f t1 t2 hnd
    exact ⟨add_app_nodup c i n ic d p f t1 t2 hnd, remove_app_nodup c i hnd⟩
  · intro ops hnd a ha
    have happs : (applyUpserts emptyCatalog ops).apps = ops.map insertedEntry := by
      have := applyUpserts_fresh ops emptyCatalog hnd (by
        intro b hb
        simp [emptyCatalog])
      simpa [emptyCatalog] using this
    have hperm : List.Perm (list_apps (applyUpserts emptyCatalog ops))
        (ops.map insertedEntry) := by
      rw [← happs]
      exact List.mergeSort_perm _ _
    have hfil := hperm.filter (fun e => e.id == a.id)
    rw [filter_map_insertedEntry hnd ha] at hfil
    exact List.perm_singleton.mp hfil

/-- Sample upsert argument lists used by concrete instantiations. -/
def argsW : UpsertArgs :=
  ⟨"weather", "Weather", "s", "shows weather", "/apps/weather/index.html",
    false, "2024-01-01T00:00:00+00:00", "x"⟩

/-- Second sample upsert argument record. -/
def argsB : UpsertArgs :=
  ⟨"books", "Books", "b", "book shelf", "/apps/books/index.html",
    true, "2024-02-01T00:00:00+00:00", "y"⟩

/-- Witness for `unique_ids_invariant`: two distinct-id upserts from
the empty catalog leave exactly one `books` entry, and one add on a
unique-id catalog keeps ids unique. -/
theorem unique_ids_invariant_witness :
    (([wEntry] : List AppEntry).map AppEntry.id).Nodup ∧
    ((add_app ⟨[wEntry]⟩ "z" "Z" "i" "d" "/z" false "T1" "T2").catalog.apps.map
        AppEntry.id).Nodup ∧
    (([argsW, argsB].map UpsertArgs.id).Nodup ∧
      (list_apps (applyUpserts emptyCatalog [argsW, argsB])).filter
          (fun e => e.id == argsB.id)
        = [insertedEntry argsB]) := by
  refine ⟨by decide, ?_, by decide, ?_⟩
  · exact (unique_ids_invariant.1 ⟨[wEntry]⟩ "z" "Z" "i" "d" "/z" false "T1" "T2"
      (by decide)).1
  · exact unique_ids_invariant.2 [argsW, argsB] (by decide) argsB
      (by simp [argsB])

/-- C6: `save_catalog` issues exactly one put of the 2-space-indented
pretty-printed JSON to the configured bucket and key with content type
`application/json` and the byte length of the payload, and returns the
put's outcome unmodified (no retry, no handler around it); the second
conjunct exhibits the 2-space indentation on the empty catalog. -/
theorem save_catalog_spec (put : PutRequest → Except String Unit) (j : Json) :
    save_catalog put j
      = put { bucket := "daedalus", key := "catalog.json", data := dumps j,
              length := (dumps j).utf8ByteSize,
              contentType := "application/json" } ∧
    dumps emptyCatalogJson = "\x7b\n  \"apps\": []\n\x7d" :=
  ⟨rfl, rfl⟩

/-- C3: `load_catalog` is a total function; a failed fetch and a fetch
whose body `json.loads` rejects both yield the literal `{"apps": []}`
instead of an error. -/
theorem load_catalog_fallback :
    load_catalog none = emptyCatalogJson ∧
    (∀ s, loads s = none → load_catalog (some s) = emptyCatalogJson) :=
  ⟨rfl, fun s h => by simp [load_catalog, h]⟩

/-- Witness for `load_catalog_fallback`: a missing object and a
malformed body both produce the empty catalog. -/
theorem load_catalog_fallback_witness :
    load_catalog none = emptyCatalogJson ∧
    loads "nope" = none ∧
    load_catalog (some "nope") = emptyCatalogJson :=
  ⟨load_catalog_fallback.1, rfl, load_catalog_fallback.2 "nope" rfl⟩

/-- C10: well-formed JSON of the wrong shape (an array, a string, an
object without `"apps"`) is returned by `load_catalog` unchanged — not
replaced by the empty catalog — and the `catalog["apps"]` subscript
that every operation performs next fails on it. -/
theorem load_wrong_shape_spec :
    (load_catalog (some "[]") = Json.arr [] ∧
      subscript (Json.arr []) "apps" = none) ∧
    (load_catalog (some "\"x\"") = Json.str "x" ∧
      subscript (Json.str "x") "apps" = none) ∧
    (load_catalog (some "\x7b\n  \"other\": null\n\x7d")
        = Json.obj [("other", Json.null)] ∧
      subscript (Json.obj [("other", Json.null)]) "apps" = none) ∧
    load_catalog (some "[]") ≠ emptyCatalogJson :=
  ⟨⟨rfl, rfl⟩, ⟨rfl, rfl⟩, ⟨rfl, rfl⟩, fun h => Json.noConfusion h⟩

/-- Skipping whitespace ignores leading spaces. -/
theorem skipWs_replicate (n : Nat) (rest : List Char) :
    skipWs (List.replicate n ' ' ++ rest) = skipWs rest := by
  induction n with
  | zero => simp
  | succ m ih => simpa [List.replicate_succ, skipWs, isWsChar] using ih

theorem skipWs_nlInd (ind : Nat) (rest : List Char) :
    skipWs (nlInd ind ++ rest) = skipWs rest := by
  simp [nlInd, skipWs, isWsChar, skipWs_replicate]

theorem skipWs_cons_of_not_ws {c : Char} (h : isWsChar c = false)
    (cs : List Char) : skipWs (c :: cs) = c :: cs := by
  simp [skipWs, h]

theorem parseStrBody_escStr (s rest : List Char) :
    parseStrBody (escStr s ++ '"' :: rest) = some (s, rest) := by
  induction s with
  | nil =>
      rw [show escStr [] ++ '"' :: rest = '"' :: rest from rfl, parseStrBody.eq_def]
      simp
  | cons c cs ih =>
      by_cases h1 : c = '"'
      · subst h1
        simp [escStr, escChar, parseStrBody, unescChar, ih]
      · by_cases h2 : c = '\\'
        · subst h2
          simp [escStr, escChar, parseStrBody, unescChar, ih]
        · by_cases h3 : c = '\n'
          · subst h3
            simp [escStr, escChar, parseStrBody, unescChar, ih]
          · by_cases h4 : c = '\t'
            · subst h4
              simp [escStr, escChar, parseStrBody, unescChar, ih]
            · by_cases h5 : c = '\r'
              · subst h5
                simp [escStr, escChar, parseStrBody, unescChar, ih]
              · simp only [escStr, escChar, if_neg h1, if_neg h2, if_neg h3,
                  if_neg h4, if_neg h5, List.cons_append, List.nil_append]
                rw [parseStrBody.eq_def]
                simp [h1, h2, ih]

theorem skipWs_dumpVal_scalar {v : Json} (hv : ScalarJ v) (ind : Nat)
    (rest : List Char) :
    skipWs (dumpVal v ind ++ rest) = dumpVal v ind ++ rest := by
  rcases hv with ⟨s, rfl⟩ | ⟨b, rfl⟩ | rfl
  · simp [dumpVal, encodeStr, skipWs, isWsChar]
  · cases b <;> simp [dumpVal, skipWs, isWsChar]
  · simp [dumpVal, skipWs, isWsChar]

theorem skipWs_dumpVal_obj (kvs : List (String × Json)) (ind : Nat)
    (rest : List Char) :
    skipWs (dumpVal (Json.obj kvs) ind ++ rest) = dumpVal (Json.obj kvs) ind ++ rest := by
  cases kvs with
  | nil => simp [dumpVal, skipWs, isWsChar]
  | cons kv tl =>
      cases kv
      simp [dumpVal, skipWs, isWsChar]

theorem skipWs_dumpVal_arr (es : List Json) (ind : Nat) (rest : List Char) :
    skipWs (dumpVal (Json.arr es) ind ++ rest) = dumpVal (Json.arr es) ind ++ rest := by
  cases es with
  | nil => simp [dumpVal, skipWs, isWsChar]
  | cons e tl => simp [dumpVal, skipWs, isWsChar]

theorem parseVal_scalar {v : Json} (hv : ScalarJ v) (fuel ind : Nat)
    (rest : List Char) :
    parseVal (fuel + 1) (dumpVal v ind ++ rest) = some (v, rest) := by
  rcases hv with ⟨s, rfl⟩ | ⟨b, rfl⟩ | rfl
  · rw [show dumpVal (Json.str s) ind ++ rest
        = '"' :: (escStr s.data ++ '"' :: rest) from by
      simp [dumpVal, encodeStr]]
    rw [parseVal.eq_def]
    simp [parseStrBody_escStr]
  · cases b <;>
      · rw [parseVal.eq_def]
        simp [dumpVal]
  · rw [parseVal.eq_def]
    simp [dumpVal]

theorem parseMembers_chain (tl : List (String × Json)) :
    ∀ (k : String) (v : Json), ScalarJ v → (∀ kv ∈ tl, ScalarJ kv.2) →
    ∀ (ind ind2 fuel : Nat) (rest : List Char),
    parseMembers (fuel + tl.length + 2)
      (encodeStr k ++ ':' :: ' ' :: (dumpVal v ind ++ (dumpMembers tl ind
        ++ (nlInd ind2 ++ '}' :: rest))))
    = some ((k, v) :: tl, rest) := by
  induction tl with
  | nil =>
      intro k v hv _ ind ind2 fuel rest
      rw [show fuel + List.length ([] : List (String × Json)) + 2 = (fuel + 1) + 1
        from by simp]
      rw [parseMembers.eq_def]
      simp [encodeStr, dumpMembers, parseStrBody_escStr, skipWs, isWsChar,
        skipWs_nlInd, skipWs_replicate, skipWs_dumpVal_scalar hv,
        parseVal_scalar hv]
  | cons kv tl2 ih =>
      intro k v hv hall ind ind2 fuel rest
      obtain ⟨k2, v2⟩ := kv
      have hv2 : ScalarJ v2 := hall (k2, v2) (List.mem_cons_self _ _)
      have hall2 : ∀ kv ∈ tl2, ScalarJ kv.2 :=
        fun kv hkv => hall kv (List.mem_cons_of_mem _ hkv)
      rw [show fuel + List.length ((k2, v2) :: tl2) + 2
          = (fuel + tl2.length + 2) + 1 from by simp [List.length_cons]; omega]
      rw [parseMembers.eq_def]
      have ihx := ih k2 v2 hv2 hall2 ind ind2 fuel rest
      simp [encodeStr, dumpMembers, parseStrBody_escStr, skipWs, isWsChar,
        skipWs_nlInd, skipWs_dumpVal_scalar hv,
        parseVal_scalar hv (fuel + tl2.length + 1)] at ihx ⊢
      rw [skipWs_replicate, skipWs_cons_of_not_ws (by decide), ihx]

theorem parseVal_flatObj (kvs : List (String × Json))
    (h : ∀ kv ∈ kvs, ScalarJ kv.2) (ind fuel : Nat) (rest : List Char) :
    parseVal (fuel + kvs.length + 2) (dumpVal (Json.obj kvs) ind ++ rest)
      = some (Json.obj kvs, rest) := by
  cases kvs with
  | nil =>
      rw [show fuel + List.length ([] : List (String × Json)) + 2
          = (fuel + 1) + 1 from by simp]
      rw [parseVal.eq_def]
      simp [dumpVal, skipWs, isWsChar]
  | cons kv tl =>
      obtain ⟨k, v⟩ := kv
      have hv : ScalarJ v := h (k, v) (List.mem_cons_self _ _)
      have htl : ∀ kv ∈ tl, ScalarJ kv.2 :=
        fun kv hkv => h kv (List.mem_cons_of_mem _ hkv)
      rw [show fuel + List.length ((k, v) :: tl) + 2
          = (fuel + tl.length + 2) + 1 from by simp [List.length_cons]; omega]
      rw [parseVal.eq_def]
      have hm := parseMembers_chain tl k v hv htl (ind + 2) ind fuel rest
      simp [encodeStr, List.append_assoc] at hm
      simp [dumpVal, encodeStr, skipWs, isWsChar, skipWs_replicate,
        List.append_assoc]
      rw [hm]

theorem parseElems_chain (tl : List Json) :
    ∀ (e : Json), FlatEntry e → (∀ x ∈ tl, FlatEntry x) →
    ∀ (ind ind2 fuel : Nat) (rest : List Char),
    parseElems (fuel + elemsFuel (e :: tl))
      (dumpVal e ind ++ (dumpElems tl ind ++ (nlInd ind2 ++ ']' :: rest)))
    = some (e :: tl, rest) := by
  induction tl with
  | nil =>
      intro e he _ ind ind2 fuel rest
      obtain ⟨kvs, rfl, hkvs⟩ := he
      rw [show fuel + elemsFuel [Json.obj kvs] = (fuel + kvs.length + 2) + 1
        from by simp [elemsFuel, entryFuel]; omega]
      rw [parseElems.eq_def]
      have hp := parseVal_flatObj kvs hkvs ind fuel
        (dumpElems [] ind ++ (nlInd ind2 ++ ']' :: rest))
      simp only [dumpElems, List.nil_append] at hp ⊢
      rw [hp]
      simp [skipWs_nlInd, skipWs, isWsChar, skipWs_replicate]
  | cons e2 tl2 ih =>
      intro e he hall ind ind2 fuel rest
      obtain ⟨kvs, rfl, hkvs⟩ := he
      have he2 : FlatEntry e2 := hall e2 (List.mem_cons_self _ _)
      have hall2 : ∀ x ∈ tl2, FlatEntry x :=
        fun x hx => hall x (List.mem_cons_of_mem _ hx)
      obtain ⟨kvs2, he2eq, hkvs2⟩ := he2
      rw [show fuel + elemsFuel (Json.obj kvs :: e2 :: tl2)
          = (fuel + kvs.length + elemsFuel (e2 :: tl2) + 2) + 1 from by
        simp [elemsFuel, entryFuel]; omega]
      rw [parseElems.eq_def]
      have hp := parseVal_flatObj kvs hkvs ind (fuel + elemsFuel (e2 :: tl2))
        (dumpElems (e2 :: tl2) ind ++ (nlInd ind2 ++ ']' :: rest))
      rw [show fuel + elemsFuel (e2 :: tl2) + kvs.length + 2
          = fuel + kvs.length + elemsFuel (e2 :: tl2) + 2 from by omega] at hp
      have ihx := ih e2 (by exact ⟨kvs2, he2eq, hkvs2⟩) hall2 ind ind2
        (fuel + kvs.length + 2) rest
      rw [show fuel + kvs.length + 2 + elemsFuel (e2 :: tl2)
          = fuel + kvs.length + elemsFuel (e2 :: tl2) + 2 from by omega] at ihx
      rw [he2eq] at hp ihx ⊢
      simp only [dumpElems, List.cons_append, List.append_assoc] at hp ihx ⊢
      rw [hp]
      simp [dumpElems, skipWs, isWsChar, skipWs_replicate, skipWs_nlInd,
        skipWs_dumpVal_obj, ihx]

theorem dumpVal_obj_head (kvs : List (String × Json)) (ind : Nat) :
    ∃ t, dumpVal (Json.obj kvs) ind = '{' :: t := by
  cases kvs with
  | nil => exact ⟨['}'], by simp [dumpVal]⟩
  | cons kv tl =>
      obtain ⟨k, v⟩ := kv
      refine ⟨nlInd (ind + 2) ++ (encodeStr k ++ ':' :: ' ' ::
        (dumpVal v (ind + 2) ++ (dumpMembers tl (ind + 2)
          ++ (nlInd ind ++ ['}'])))), ?_⟩
      simp [dumpVal]

theorem dumpVal_arr_head (es : List Json) (ind : Nat) :
    ∃ t, dumpVal (Json.arr es) ind = '[' :: t := by
  cases es with
  | nil => exact ⟨[']'], by simp [dumpVal]⟩
  | cons e tl =>
      refine ⟨nlInd (ind + 2) ++ (dumpVal e (ind + 2)
        ++ (dumpElems tl (ind + 2) ++ (nlInd ind ++ [']']))), ?_⟩
      simp [dumpVal]

theorem parseVal_flatArr (es : List Json) (h : ∀ x ∈ es, FlatEntry x)
    (ind fuel : Nat) (rest : List Char) :
    parseVal (fuel + elemsFuel es + 2) (dumpVal (Json.arr es) ind ++ rest)
      = some (Json.arr es, rest) := by
  cases es with
  | nil =>
      rw [show fuel + elemsFuel [] + 2 = (fuel + 1) + 1 from by
        simp [elemsFuel]]
      rw [parseVal.eq_def]
      simp [dumpVal, skipWs, isWsChar]
  | cons e tl =>
      have he := h e (List.mem_cons_self _ _)
      have htl : ∀ x ∈ tl, FlatEntry x :=
        fun x hx => h x (List.mem_cons_of_mem _ hx)
      obtain ⟨kvs, heq, hkvs⟩ := he
      rw [show fuel + elemsFuel (e :: tl) + 2
          = ((fuel + 1) + elemsFuel (e :: tl)) + 1 from by omega]
      rw [parseVal.eq_def]
      have hc := parseElems_chain tl e ⟨kvs, heq, hkvs⟩ htl (ind + 2) ind
        (fuel + 1) rest
      rw [heq] at hc ⊢
      obtain ⟨t, ht⟩ := dumpVal_obj_head kvs (ind + 2)
      simp only [dumpVal, List.cons_append, List.append_assoc] at hc ⊢
      rw [ht] at hc ⊢
      simp only [List.cons_append, List.append_assoc] at hc
      simp [skipWs, isWsChar, skipWs_replicate, hc]

theorem parseVal_flatDoc (es : List Json) (h : ∀ x ∈ es, FlatEntry x)
    (ind fuel : Nat) (rest : List Char) :
    parseVal (fuel + elemsFuel es + 6)
      (dumpVal (Json.obj [("apps", Json.arr es)]) ind ++ rest)
      = some (Json.obj [("apps", Json.arr es)], rest) := by
  rw [show fuel + elemsFuel es + 6
      = ((fuel + elemsFuel es + 4) + 1) + 1 from by omega]
  rw [parseVal.eq_def]
  have hp := parseVal_flatArr es h (ind + 2) (fuel + 2)
    (nlInd ind ++ '}' :: rest)
  rw [show fuel + 2 + elemsFuel es + 2
      = fuel + elemsFuel es + 4 from by omega] at hp
  simp [dumpVal, dumpMembers, encodeStr, parseMembers, parseStrBody_escStr,
    skipWs, isWsChar, skipWs_replicate, skipWs_nlInd, skipWs_dumpVal_arr,
    hp, List.append_assoc]

theorem nlInd_length (n : Nat) : (nlInd n).length = n + 1 := by
  simp [nlInd]

theorem two_le_encodeStr_length (s : String) : 2 ≤ (encodeStr s).length := by
  simp [encodeStr]

theorem len_dumpMembers (tl : List (String × Json)) (ind : Nat) :
    tl.length ≤ (dumpMembers tl ind).length := by
  induction tl with
  | nil => simp [dumpMembers]
  | cons kv tl2 ih =>
      obtain ⟨k, v⟩ := kv
      have := two_le_encodeStr_length k
      simp [dumpMembers, nlInd_length]
      omega

theorem entryFuel_le_len (e : Json) (ind : Nat) :
    entryFuel e ≤ (dumpVal e ind).length := by
  cases e with
  | null => simp [entryFuel, dumpVal]
  | bool b => cases b <;> simp [entryFuel, dumpVal]
  | str s =>
      have := two_le_encodeStr_length s
      simp [entryFuel, dumpVal]
      omega
  | arr es =>
      cases es with
      | nil => simp [entryFuel, dumpVal]
      | cons e2 tl => simp [entryFuel, dumpVal, nlInd_length]
  | obj kvs =>
      cases kvs with
      | nil => simp [entryFuel, dumpVal]
      | cons kv tl =>
          obtain ⟨k, v⟩ := kv
          have h1 := len_dumpMembers tl (ind + 2)
          have h2 := two_le_encodeStr_length k
          simp [entryFuel, dumpVal, nlInd_length]
          omega

theorem elemsFuel_le_len_elems (tl : List Json) (ind : Nat) :
    elemsFuel tl ≤ (dumpElems tl ind).length := by
  induction tl with
  | nil => simp [elemsFuel, dumpElems]
  | cons e tl2 ih =>
      have := entryFuel_le_len e ind
      simp [elemsFuel, dumpElems, nlInd_length]
      omega

theorem elemsFuel_le_len_arr (es : List Json) (ind : Nat) :
    elemsFuel es ≤ (dumpVal (Json.arr es) ind).length := by
  cases es with
  | nil => simp [elemsFuel, dumpVal]
  | cons e tl =>
      have h1 := entryFuel_le_len e (ind + 2)
      have h2 := elemsFuel_le_len_elems tl (ind + 2)
      simp [elemsFuel, dumpVal, nlInd_length]
      omega

theorem loads_dumps_doc (es : List Json) (h : ∀ x ∈ es, FlatEntry x) :
    loads (dumps (Json.obj [("apps", Json.arr es)]))
      = some (Json.obj [("apps", Json.arr es)]) := by
  have h1 := elemsFuel_le_len_arr es 2
  have hlen : elemsFuel es + 5
      ≤ (dumpVal (Json.obj [("apps", Json.arr es)]) 0).length := by
    simp [dumpVal, dumpMembers, encodeStr, escStr, escChar, nlInd_length]
    omega
  obtain ⟨f, hf⟩ : ∃ f,
      (dumpVal (Json.obj [("apps", Json.arr es)]) 0).length + 1
        = f + elemsFuel es + 6 :=
    ⟨(dumpVal (Json.obj [("apps", Json.arr es)]) 0).length + 1
      - (elemsFuel es + 6), by omega⟩
  have hmain := parseVal_flatDoc es h 0 f []
  rw [List.append_nil] at hmain
  obtain ⟨t, ht⟩ := dumpVal_obj_head [("apps", Json.arr es)] 0
  unfold loads dumps
  rw [show (String.mk (dumpVal (Json.obj [("apps", Json.arr es)]) 0)).length
      = (dumpVal (Json.obj [("apps", Json.arr es)]) 0).length from rfl]
  rw [show (String.mk (dumpVal (Json.obj [("apps", Json.arr es)]) 0)).data
      = dumpVal (Json.obj [("apps", Json.arr es)]) 0 from rfl]
  rw [hf]
  rw [ht] at hmain ⊢
  rw [skipWs_cons_of_not_ws (by decide)]
  rw [hmain]
  simp [skipWs]

/-- C9: for a stored document that parses as a valid catalog document,
`load_catalog` returns the parsed structure unchanged, and re-parsing
the bytes `save_catalog` would write for it (`dumps` of it) yields an
equal structure — `save(load())` is semantically idempotent. -/
theorem save_load_roundtrip (s : String) (j : Json) (h1 : loads s = some j)
    (h2 : FlatDoc j) :
    load_catalog (some s) = j ∧
    loads (dumps (load_catalog (some s))) = some (load_catalog (some s)) := by
  have hl : load_catalog (some s) = j := by simp [load_catalog, h1]
  obtain ⟨es, rfl, hes⟩ := h2
  exact ⟨hl, by rw [hl]; exact loads_dumps_doc es hes⟩

def sampleDoc : Json :=
  Json.obj [("apps", Json.arr
    [Json.obj [("id", Json.str "weather"), ("featured", Json.bool false)]])]

def sampleDocText : String :=
  "\x7b\n  \"apps\": [\n    \x7b\n      \"id\": \"weather\",\n      \"featured\": false\n    \x7d\n  ]\n\x7d"

theorem save_load_roundtrip_witness :
    loads sampleDocText = some sampleDoc ∧ FlatDoc sampleDoc ∧
    load_catalog (some sampleDocText) = sampleDoc ∧
    loads (dumps (load_catalog (some sampleDocText)))
      = some (load_catalog (some sampleDocText)) := by
  have hflat : FlatDoc sampleDoc := by
    refine ⟨[Json.obj [("id", Json.str "weather"), ("featured", Json.bool false)]],
      rfl, ?_⟩
    intro e he
    simp only [List.mem_singleton] at he
    subst he
    refine ⟨[("id", Json.str "weather"), ("featured", Json.bool false)], rfl, ?_⟩
    intro kv hkv
    rcases List.mem_cons.mp hkv with rfl | hkv2
    · exact Or.inl ⟨"weather", rfl⟩
    · rcases List.mem_singleton.mp hkv2 with rfl
      exact Or.inr (Or.inl ⟨false, rfl⟩)
  have h := save_load_roundtrip sampleDocText sampleDoc rfl hflat
  exact ⟨rfl, hflat, h.1, h.2⟩
